import Mathlib

/-!
# Verification of the CV-Review-agent evaluation pipeline

A shallow embedding, in Lean 4, of the core of the `fmuoria/CV-Review-agent`
Go repository: the data model (`internal/models/models.go`), the ranking and
retry logic of `internal/agent/agent.go` (the variant with context support,
retry, and progress reporting), the response decoding of
`internal/scoring/scorer.go`, the Gmail fetch loop of
`internal/ingestion/gmail_handler.go` (variant with context and progress),
and the document loading of `internal/ingestion/file_handler.go`.

Modelling conventions:
* Go `string` values are modelled as `List Char` (the sources only ever
  inspect ASCII content, where Go's byte indexing and Lean's character
  indexing agree).
* Go `float64` score fields are modelled as `ℚ`: every concrete value the
  pipeline manipulates in the verified scenarios is exactly representable,
  and the code performs no operation whose float rounding could differ from
  exact arithmetic on those values.
* `context.Context` cancellation is modelled by an optional checkpoint
  index `cancelAt`: the `select { case <-ctx.Done() ... }` checks performed
  by a run are numbered in execution order, and the check numbered `k`
  (and every later one) observes cancellation exactly when
  `cancelAt = some k'` with `k' ≤ k`.
* External effects (the Gmail service, the LLM, the file system, `time.Sleep`)
  are passed in as explicit environments / result oracles; sleeps are
  recorded in the output rather than performed.
-/

namespace CVReview

/-- Characters Go's `strings.TrimSpace` removes (`unicode.IsSpace` on the
ASCII range, which is all the sources produce). -/
def isSpaceChar (c : Char) : Bool :=
  c = ' ' || c = '\t' || c = '\n' || c = '\r' || c = '\x0b' || c = '\x0c'

/-- `strings.Contains hay sub` on the `List Char` model of Go strings. -/
def containsSub (hay sub : List Char) : Bool :=
  match hay with
  | [] => sub.isEmpty
  | _ :: t => sub.isPrefixOf hay || containsSub t sub

/-- Left part of `strings.TrimSpace`: drop leading space characters. -/
def trimLeftSpace : List Char → List Char
  | [] => []
  | c :: cs => if isSpaceChar c then trimLeftSpace cs else c :: cs

/-- Right part of `strings.TrimSpace`: drop trailing space characters. -/
def trimRightSpace (cs : List Char) : List Char :=
  (trimLeftSpace cs.reverse).reverse

/-- `strings.TrimSpace` on the `List Char` model of Go strings. -/
def trimSpace (cs : List Char) : List Char :=
  trimRightSpace (trimLeftSpace cs)

/-- `strings.TrimPrefix s pre`: remove `pre` from the front when present. -/
def trimPrefixL (s pre : List Char) : List Char :=
  if pre.isPrefixOf s then s.drop pre.length else s

/-- `strings.TrimSuffix s suf`: remove `suf` from the end when present. -/
def trimSuffixL (s suf : List Char) : List Char :=
  if s.reverse.take suf.length = suf.reverse then s.take (s.length - suf.length) else s

/-- `strings.Index s [c]` (first index of character `c`, `-1` when absent). -/
def idxOfChar : List Char → Char → Int
  | [], _ => -1
  | a :: as, c =>
    if a = c then 0
    else
      let r := idxOfChar as c
      if r = -1 then -1 else r + 1

/-- `strings.LastIndex s [c]` (last index of character `c`, `-1` when absent). -/
def lastIdxOfChar (s : List Char) (c : Char) : Int :=
  if idxOfChar s.reverse c = -1 then -1
  else (s.length : Int) - 1 - idxOfChar s.reverse c

/-! ## Data model (`internal/models/models.go`) -/

/-- `models.Scores`: the evaluation scores for one applicant.  Score fields
are Go `float64`, modelled as `ℚ`; reasoning fields are Go strings. -/
structure Scores where
  experienceScore : ℚ
  educationScore : ℚ
  dutiesScore : ℚ
  coverLetterScore : ℚ
  totalScore : ℚ
  experienceReasoning : List Char
  educationReasoning : List Char
  dutiesReasoning : List Char
  coverLetterReasoning : List Char
deriving DecidableEq

/-- The zero value of `models.Scores`, as produced by `var scores models.Scores`. -/
def Scores.zero : Scores :=
  ⟨0, 0, 0, 0, 0, [], [], [], []⟩

/-- `models.ApplicantResult`: one applicant's evaluation result (the
`CVPath`/`CLPath` bookkeeping fields are omitted; nothing reads them). -/
structure ApplicantResult where
  name : List Char
  scores : Scores
  rank : Nat
deriving DecidableEq

/-! ## Ranking (`agent.go`, `processApplicants`, sorting and rank assignment)

`processApplicants` ends with

```go
sort.Slice(results, func(i, j int) bool {
    return results[i].Scores.TotalScore > results[j].Scores.TotalScore
})
for i := range results {
    results[i].Rank = i + 1
}
```

`sort.Slice` sorts by the comparator; for slices shorter than 12 elements Go
runs a plain insertion sort, which keeps the original relative order of
elements the comparator cannot distinguish.  `sortByLt` below is that stable
insertion sort, parameterized by the same strict comparator. -/

/-- Stable insertion of `x` into a list sorted by the strict comparator `lt`:
`x` is placed after every element strictly below it (`lt y x`), and before
the first element that is not. This is the net effect of Go's insertion sort
moving `x` left while `less` holds. -/
def insertByLt (lt : α → α → Bool) (x : α) : List α → List α
  | [] => [x]
  | y :: ys => if lt y x then y :: insertByLt lt x ys else x :: y :: ys

/-- Stable sort by a strict comparator (insertion sort, as Go's `sort.Slice`
runs on the short slices of the verified scenarios). -/
def sortByLt (lt : α → α → Bool) : List α → List α
  | [] => []
  | x :: xs => insertByLt lt x (sortByLt lt xs)

/-- The comparator passed to `sort.Slice` in `processApplicants`:
`results[i].Scores.TotalScore > results[j].Scores.TotalScore`. -/
def resultLess (a b : ApplicantResult) : Bool :=
  b.scores.totalScore < a.scores.totalScore

/-- The rank-assignment loop `for i := range results { results[i].Rank = i + 1 }`,
started at index `i`. -/
def assignRanksFrom (i : Nat) : List ApplicantResult → List ApplicantResult
  | [] => []
  | r :: rs => { r with rank := i + 1 } :: assignRanksFrom (i + 1) rs

/-- The ranking step of `processApplicants`: sort by total score descending
(`sort.Slice` with `resultLess`), then assign 1-based consecutive ranks. -/
def rankResults (results : List ApplicantResult) : List ApplicantResult :=
  assignRanksFrom 0 (sortByLt resultLess results)

theorem assignRanksFrom_map_rank (i : Nat) (l : List ApplicantResult) :
    (assignRanksFrom i l).map (fun r => r.rank) = List.range' (i + 1) l.length := by
  induction l generalizing i with
  | nil => rfl
  | cons r rs ih =>
    simp [assignRanksFrom, List.range', ih]

theorem length_insertByLt (lt : α → α → Bool) (x : α) (l : List α) :
    (insertByLt lt x l).length = l.length + 1 := by
  induction l with
  | nil => rfl
  | cons y ys ih =>
    by_cases h : lt y x <;> simp [insertByLt, h, ih]

theorem length_sortByLt (lt : α → α → Bool) (l : List α) :
    (sortByLt lt l).length = l.length := by
  induction l with
  | nil => rfl
  | cons x xs ih => simp [sortByLt, length_insertByLt, ih]

theorem resultLess_true_iff (a b : ApplicantResult) :
    resultLess a b = true ↔ b.scores.totalScore < a.scores.totalScore := by
  simp [resultLess]

theorem resultLess_false_iff (a b : ApplicantResult) :
    resultLess a b = false ↔ a.scores.totalScore ≤ b.scores.totalScore := by
  simp [resultLess, not_lt]

theorem mem_insertByLt (lt : α → α → Bool) (x z : α) (l : List α)
    (h : z ∈ insertByLt lt x l) : z = x ∨ z ∈ l := by
  induction l with
  | nil => simpa [insertByLt] using h
  | cons y ys ih =>
    by_cases hy : lt y x
    · simp only [insertByLt, hy, if_pos, List.mem_cons] at h
      rcases h with h | h
      · exact Or.inr (by simp [h])
      · rcases ih h with h' | h'
        · exact Or.inl h'
        · exact Or.inr (by simp [h'])
    · simp only [insertByLt, hy, if_neg, Bool.false_eq_true, not_false_iff,
        List.mem_cons] at h
      rcases h with h | h | h
      · exact Or.inl h
      · exact Or.inr (by simp [h])
      · exact Or.inr (by simp [h])

/-- Insertion into a list that is pairwise descending in total score keeps it
pairwise descending. -/
theorem pairwise_insertByLt (x : ApplicantResult) (l : List ApplicantResult)
    (hl : l.Pairwise (fun a b => b.scores.totalScore ≤ a.scores.totalScore)) :
    (insertByLt resultLess x l).Pairwise
      (fun a b => b.scores.totalScore ≤ a.scores.totalScore) := by
  induction l with
  | nil => simp [insertByLt]
  | cons y ys ih =>
    rcases List.pairwise_cons.mp hl with ⟨hy, hys⟩
    by_cases hcmp : resultLess y x
    · have hxy : x.scores.totalScore < y.scores.totalScore :=
        (resultLess_true_iff y x).mp hcmp
      simp only [insertByLt, hcmp, if_pos]
      refine List.pairwise_cons.mpr ⟨?_, ih hys⟩
      intro z hz
      rcases mem_insertByLt resultLess x z ys hz with rfl | hz'
      · exact le_of_lt hxy
      · exact hy z hz'
    · have hyx : y.scores.totalScore ≤ x.scores.totalScore := by
        have := (resultLess_false_iff y x).mp (Bool.eq_false_iff.mpr hcmp)
        simpa using this
      simp only [insertByLt, hcmp, if_neg, Bool.false_eq_true, not_false_iff]
      refine List.pairwise_cons.mpr ⟨?_, hl⟩
      intro z hz
      rcases List.mem_cons.mp hz with rfl | hz'
      · exact hyx
      · exact le_trans (hy z hz') hyx

/-- The sort at the end of `processApplicants` yields a list whose total
scores are descending. -/
theorem pairwise_sortByLt (l : List ApplicantResult) :
    (sortByLt resultLess l).Pairwise
      (fun a b => b.scores.totalScore ≤ a.scores.totalScore) := by
  induction l with
  | nil => simp [sortByLt]
  | cons x xs ih => exact pairwise_insertByLt x (sortByLt resultLess xs) ih

theorem insertByLt_perm (lt : α → α → Bool) (x : α) (l : List α) :
    (insertByLt lt x l).Perm (x :: l) := by
  induction l with
  | nil => simp [insertByLt]
  | cons y ys ih =>
    by_cases hy : lt y x
    · simp only [insertByLt, hy, if_pos]
      exact (ih.cons y).trans (List.Perm.swap x y ys)
    · simp [insertByLt, hy]

theorem sortByLt_perm (lt : α → α → Bool) (l : List α) :
    (sortByLt lt l).Perm l := by
  induction l with
  | nil => simp [sortByLt]
  | cons x xs ih => exact (insertByLt_perm lt x (sortByLt lt xs)).trans (ih.cons x)

/-- `assignRanksFrom` rewrites only the `rank` field: names and scores are
kept pointwise. -/
theorem assignRanksFrom_map_core (i : Nat) (l : List ApplicantResult) :
    (assignRanksFrom i l).map (fun r => (r.name, r.scores)) =
      l.map (fun r => (r.name, r.scores)) := by
  induction l generalizing i with
  | nil => rfl
  | cons r rs ih => simp [assignRanksFrom, ih]

theorem rankResults_totals_desc (rs : List ApplicantResult) :
    ((rankResults rs).map (fun r => r.scores.totalScore)).Pairwise
      (fun a b : ℚ => b ≤ a) := by
  have h := pairwise_sortByLt rs
  have hmap :
      (rankResults rs).map (fun r => r.scores.totalScore) =
        (sortByLt resultLess rs).map (fun r => r.scores.totalScore) := by
    have := assignRanksFrom_map_core 0 (sortByLt resultLess rs)
    have h2 := congrArg (List.map (fun p : List Char × Scores => p.2.totalScore)) this
    simpa [rankResults, Function.comp] using h2
  rw [hmap]
  exact (List.pairwise_map).mpr h

/-- The applicant used in the ranking tie-break scenario with education
score 12 (total 80 = 40 + 12 + 15 + 13). -/
def tieEdu12 : ApplicantResult :=
  ⟨"Alice".data, ⟨40, 12, 15, 13, 80, [], [], [], []⟩, 0⟩

/-- The applicant used in the ranking tie-break scenario with education
score 18 (total 80 = 40 + 18 + 15 + 7). -/
def tieEdu18 : ApplicantResult :=
  ⟨"Bob".data, ⟨40, 18, 15, 7, 80, [], [], [], []⟩, 0⟩

/-- Claim C1, counterexample.  Two applicants with identical totals (80),
identical experience (40) and identical duties (15), education 12 vs 18,
with the 12-education applicant listed first: the ranking step leaves the
input order unchanged (the `sort.Slice` comparator looks only at
`TotalScore`, and on two equal totals Go's insertion sort does not swap), so
the 18-education applicant receives rank 2 — it is NOT placed strictly
higher, contradicting the claim. -/
theorem rankResults_no_education_tiebreak :
    rankResults [tieEdu12, tieEdu18] =
      [⟨"Alice".data, ⟨40, 12, 15, 13, 80, [], [], [], []⟩, 1⟩,
       ⟨"Bob".data, ⟨40, 18, 15, 7, 80, [], [], [], []⟩, 2⟩] := by
  decide

/-- Claim C1, amended.  The ranking step orders results by total score
descending only: the output totals are pairwise descending and the output is
a permutation of the input (up to the rewritten rank field); sub-scores are
never consulted, so in the tie-break scenario (identical totals, experience
and duties, education 12 vs 18, the 12-education applicant listed first) the
input order is kept and the 12-education applicant is ranked strictly
higher. -/
theorem rankResults_sorts_by_total_only :
    (∀ rs : List ApplicantResult,
        ((rankResults rs).map (fun r => r.scores.totalScore)).Pairwise
          (fun a b : ℚ => b ≤ a) ∧
        ((rankResults rs).map (fun r => (r.name, r.scores))).Perm
          (rs.map (fun r => (r.name, r.scores)))) ∧
    rankResults [tieEdu12, tieEdu18] =
      [{ tieEdu12 with rank := 1 }, { tieEdu18 with rank := 2 }] := by
  refine ⟨fun rs => ⟨rankResults_totals_desc rs, ?_⟩, by decide⟩
  rw [rankResults, assignRanksFrom_map_core]
  exact (sortByLt_perm resultLess rs).map _

/-- Claim C9.  After the ranking step the ranks assigned to the `n` ordered
results are exactly the consecutive integers `1, …, n` in order, with no
shared ranks. -/
theorem rankResults_ranks_consecutive (rs : List ApplicantResult) :
    (rankResults rs).map (fun r => r.rank) = List.range' 1 rs.length := by
  rw [rankResults, assignRanksFrom_map_rank, length_sortByLt]

/-! ## Response decoding (`internal/scoring/scorer.go`)

`parseScores` hands the LLM response to `encoding/json.Unmarshal` (after
optionally stripping markdown code fences), falling back to the substring
between the first `{` and the last `}`.  The responses the scorer protocol
deals in are flat JSON objects whose values are numbers and strings;
`unmarshalScores` below models `json.Unmarshal([]byte(s), &scores)` on that
fragment of JSON (exact-case keys, no nested values, no exponents — the
shapes every response in the verified properties takes). -/

/-- JSON values occurring in evaluator responses: numbers and strings. -/
inductive JVal where
  | num : ℚ → JVal
  | str : List Char → JVal
deriving DecidableEq

/-- JSON whitespace (`encoding/json`): space, tab, newline, carriage return. -/
def isJsonWs (c : Char) : Bool :=
  c = ' ' || c = '\t' || c = '\n' || c = '\r'

/-- Skip leading JSON whitespace. -/
def skipJsonWs : List Char → List Char
  | [] => []
  | c :: cs => if isJsonWs c then skipJsonWs cs else c :: cs

/-- Resolve a JSON string escape `\c` (the escapes the scorer's strings
use). -/
def unescapeChar (c : Char) : Char :=
  if c = 'n' then '\n' else if c = 't' then '\t' else if c = 'r' then '\r' else c

/-- Parse the body of a JSON string after the opening quote, returning the
content and what follows the closing quote. -/
def parseStringBody : List Char → Option (List Char × List Char)
  | [] => none
  | '"' :: rest => some ([], rest)
  | '\\' :: c :: rest =>
    match parseStringBody rest with
    | some (s, r) => some (unescapeChar c :: s, r)
    | none => none
  | c :: rest =>
    match parseStringBody rest with
    | some (s, r) => some (c :: s, r)
    | none => none

/-- Split a leading run of decimal digits from the input. -/
def splitDigits : List Char → List Char × List Char
  | [] => ([], [])
  | c :: cs =>
    if c.isDigit then
      let (ds, r) := splitDigits cs
      (c :: ds, r)
    else ([], c :: cs)

/-- Decimal digits to a natural number. -/
def digitsToNat (ds : List Char) : Nat :=
  ds.foldl (fun acc c => acc * 10 + (c.toNat - '0'.toNat)) 0

/-- Parse a JSON number (optional sign, integer part, optional fraction);
the exact decimal value is produced as a rational via `mkRat`. -/
def parseNumber (cs : List Char) : Option (ℚ × List Char) :=
  let signSplit : Bool × List Char :=
    match cs with
    | '-' :: t => (true, t)
    | _ => (false, cs)
  let (ds, cs2) := splitDigits signSplit.2
  if ds = [] then none
  else
    match cs2 with
    | '.' :: cs3 =>
      let (fs, cs4) := splitDigits cs3
      if fs = [] then none
      else
        let n : Int := (digitsToNat ds) * (10 ^ fs.length) + digitsToNat fs
        some (mkRat (if signSplit.1 then -n else n) (10 ^ fs.length), cs4)
    | _ =>
      let n : Int := digitsToNat ds
      some (mkRat (if signSplit.1 then -n else n) 1, cs2)

/-- Parse one JSON value (string or number). -/
def parseJVal (cs : List Char) : Option (JVal × List Char) :=
  match cs with
  | '"' :: rest => (parseStringBody rest).map (fun p => (JVal.str p.1, p.2))
  | _ => (parseNumber cs).map (fun p => (JVal.num p.1, p.2))

/-- Parse the members of a JSON object, positioned at the first key's opening
quote; returns the key/value list and what follows the closing `}`.  `fuel`
bounds the number of members (any value above the input length works). -/
def parseMembers (fuel : Nat) (cs : List Char) :
    Option (List (List Char × JVal) × List Char) :=
  match fuel with
  | 0 => none
  | fuel + 1 =>
    match cs with
    | '"' :: rest =>
      match parseStringBody rest with
      | none => none
      | some (key, r1) =>
        match skipJsonWs r1 with
        | ':' :: r2 =>
          match parseJVal (skipJsonWs r2) with
          | none => none
          | some (v, r3) =>
            match skipJsonWs r3 with
            | ',' :: r4 =>
              match parseMembers fuel (skipJsonWs r4) with
              | none => none
              | some (ms, r5) => some ((key, v) :: ms, r5)
            | '}' :: r4 => some ([(key, v)], r4)
            | _ => none
        | _ => none
    | _ => none

/-- Parse a top-level JSON object, returning its members and the remaining
input. -/
def parseTopObject (cs : List Char) : Option (List (List Char × JVal) × List Char) :=
  match skipJsonWs cs with
  | '{' :: rest =>
    match skipJsonWs rest with
    | '}' :: r => some ([], r)
    | r2 => parseMembers (r2.length + 1) r2
  | _ => none

/-- Assign one decoded member into `models.Scores` following the field tags
of `models.go` (`json:"experience_score"` etc.); unknown keys are ignored, a
type mismatch on a known key is an unmarshal error (`none`). -/
def setScoreField (s : Scores) (key : List Char) (v : JVal) : Option Scores :=
  if key = "experience_score".data then
    match v with
    | .num q => some { s with experienceScore := q }
    | _ => none
  else if key = "education_score".data then
    match v with
    | .num q => some { s with educationScore := q }
    | _ => none
  else if key = "duties_score".data then
    match v with
    | .num q => some { s with dutiesScore := q }
    | _ => none
  else if key = "cover_letter_score".data then
    match v with
    | .num q => some { s with coverLetterScore := q }
    | _ => none
  else if key = "total_score".data then
    match v with
    | .num q => some { s with totalScore := q }
    | _ => none
  else if key = "experience_reasoning".data then
    match v with
    | .str t => some { s with experienceReasoning := t }
    | _ => none
  else if key = "education_reasoning".data then
    match v with
    | .str t => some { s with educationReasoning := t }
    | _ => none
  else if key = "duties_reasoning".data then
    match v with
    | .str t => some { s with dutiesReasoning := t }
    | _ => none
  else if key = "cover_letter_reasoning".data then
    match v with
    | .str t => some { s with coverLetterReasoning := t }
    | _ => none
  else some s

/-- Fold the decoded members into the zero `Scores` value, later duplicates
overwriting earlier ones, as `json.Unmarshal` does. -/
def assignFields (s : Scores) : List (List Char × JVal) → Option Scores
  | [] => some s
  | (k, v) :: rest =>
    match setScoreField s k v with
    | none => none
    | some s' => assignFields s' rest

/-- Model of `json.Unmarshal([]byte(s), &scores)` on the response fragment of
JSON: a single top-level object with number/string values, nothing but
whitespace after it. -/
def unmarshalScores (cs : List Char) : Except (List Char) Scores :=
  match parseTopObject cs with
  | none => .error "invalid JSON".data
  | some (ms, rest) =>
    if skipJsonWs rest = [] then
      match assignFields Scores.zero ms with
      | some s => .ok s
      | none => .error "cannot unmarshal value into Scores field".data
    else .error "invalid character after top-level value".data

/-- The fenced-code-block marker `parseScores` looks for. -/
def fenceMarker : List Char := "```json".data

/-- `truncate` from `scorer.go`: first `maxLen` characters plus `"..."`. -/
def truncateStr (s : List Char) (maxLen : Nat) : List Char :=
  if s.length ≤ maxLen then s else s.take maxLen ++ "...".data

/-- The fence-stripping step of `parseScores`: trim, remove a leading
```` ```json ```` (or bare ```` ``` ````), remove a trailing ```` ``` ````,
trim again. -/
def stripFencesStep (response : List Char) : List Char :=
  trimSpace (trimSuffixL
    (if fenceMarker.isPrefixOf (trimSpace response) then
      trimPrefixL (trimSpace response) fenceMarker
    else trimPrefixL (trimSpace response) "```".data)
    "```".data)

/-- The brace-extraction fallback of `parseScores`: take the substring of
`cleaned` from the first `{` to the last `}` and unmarshal it
(`response` only feeds the diagnostic error message, as in the source). -/
def extractBetweenBraces (cleaned response : List Char) : Except (List Char) Scores :=
  if idxOfChar cleaned '{' = -1 || lastIdxOfChar cleaned '}' = -1 ||
      idxOfChar cleaned '{' ≥ lastIdxOfChar cleaned '}' then
    .error ("no JSON found in response: ".data ++ truncateStr response 200)
  else
    match unmarshalScores ((cleaned.drop (idxOfChar cleaned '{').toNat).take
        ((lastIdxOfChar cleaned '}').toNat + 1 - (idxOfChar cleaned '{').toNat)) with
    | .ok s => .ok s
    | .error e =>
      .error ("failed to parse extracted JSON: ".data ++ e ++ "\nExtracted: ".data ++
        truncateStr ((cleaned.drop (idxOfChar cleaned '{').toNat).take
          ((lastIdxOfChar cleaned '}').toNat + 1 - (idxOfChar cleaned '{').toNat)) 200)

/-- `parseScores` from `scorer.go`: strip markdown fences when the marker is
present, try a direct unmarshal, then fall back to the substring from the
first `{` to the last `}`. -/
def parseScores (response : List Char) : Except (List Char) Scores :=
  match unmarshalScores
      (if containsSub response fenceMarker then stripFencesStep response
       else response) with
  | .ok s => .ok s
  | .error _ =>
    extractBetweenBraces
      (if containsSub response fenceMarker then stripFencesStep response
       else response) response

/-- `ScoreApplicant` from `scorer.go`, after the LLM produced `response`:
decode the response, then recompute the total as the sum of the four
sub-scores, overwriting whatever total the response carried. -/
def scoreApplicant (response : List Char) : Except (List Char) Scores :=
  match parseScores response with
  | .error e => .error ("failed to parse scores: ".data ++ e)
  | .ok scores =>
    .ok { scores with
      totalScore := scores.experienceScore + scores.educationScore +
        scores.dutiesScore + scores.coverLetterScore }

/-- Claim C3.  Whenever the evaluation step successfully decodes a response,
the returned `Scores` has its total equal to the sum of the four sub-scores,
regardless of any total field present in the raw response. -/
theorem scoreApplicant_total_is_sum (response : List Char) (S : Scores)
    (h : scoreApplicant response = .ok S) :
    S.totalScore = S.experienceScore + S.educationScore +
      S.dutiesScore + S.coverLetterScore := by
  cases hp : parseScores response with
  | error e => simp [scoreApplicant, hp] at h
  | ok sc =>
    simp only [scoreApplicant, hp, Except.ok.injEq] at h
    subst h
    rfl

/-- Concrete evaluator response with sub-scores 45, 18, 17, 8 and a bogus
claimed total of 50. -/
def responseBogusTotal : List Char :=
  ("\x7b\"experience_score\": 45, \"education_score\": 18, \"duties_score\": 17, " ++
   "\"cover_letter_score\": 8, \"total_score\": 50\x7d").data

/-- Witness for claim C3: the bogus-total response decodes, and the decoded
total is 88 = 45 + 18 + 17 + 8, not the claimed 50. -/
theorem scoreApplicant_total_is_sum_witness :
    scoreApplicant responseBogusTotal = .ok ⟨45, 18, 17, 8, 88, [], [], [], []⟩ ∧
    (88 : ℚ) = 45 + 18 + 17 + 8 := by
  have hp : parseScores responseBogusTotal = .ok ⟨45, 18, 17, 8, 50, [], [], [], []⟩ := by
    rfl
  have h : scoreApplicant responseBogusTotal =
      .ok ⟨45, 18, 17, 8, 88, [], [], [], []⟩ := by
    simp only [scoreApplicant, hp]
    norm_num
  exact ⟨h, by simpa using scoreApplicant_total_is_sum responseBogusTotal _ h⟩

/-! ## Requirement condensing (`scorer.go`, `condenseRequirements`) -/

/-- The item-writing loop of `condenseRequirements`:
`for i := 0; i < count; i++ { if i > 0 { sb.WriteString("; ") }; sb.WriteString(items[i]) }`,
written with the remaining iteration count `rem = count - i` explicit (the
loop guard `i < count` is exactly `rem > 0`). -/
def writeItemsFrom (items : List (List Char)) : Nat → Nat → List Char
  | 0, _ => []
  | rem + 1, i =>
    (if 0 < i then "; ".data else []) ++ items.getD i [] ++
      writeItemsFrom items rem (i + 1)

/-- `condenseRequirements` from `scorer.go`: empty input yields the empty
string; otherwise `"<category>: "`, the first `min(len(items), maxItems)`
items separated by `"; "`, a `" (+K more)"` marker when items were dropped,
and a newline. -/
def condenseRequirements (category : List Char) (items : List (List Char))
    (maxItems : Nat) : List Char :=
  if items.length = 0 then []
  else
    let count := if items.length > maxItems then maxItems else items.length
    category ++ ": ".data ++ writeItemsFrom items count 0 ++
      (if items.length > maxItems then
        " (+".data ++ (Nat.repr (items.length - maxItems)).data ++ " more)".data
      else []) ++
      "\n".data

/-- Specification-side join: items separated by `sep`, in order. -/
def joinSep (sep : List Char) : List (List Char) → List Char
  | [] => []
  | [x] => x
  | x :: y :: rest => x ++ sep ++ joinSep sep (y :: rest)

theorem writeItemsFrom_tail (items : List (List Char)) :
    ∀ rem i, 0 < i → i + rem ≤ items.length →
      writeItemsFrom items rem i =
        ((items.drop i).take rem).foldr (fun x acc => "; ".data ++ x ++ acc) [] := by
  intro rem
  induction rem with
  | zero => intro i _ _; simp [writeItemsFrom]
  | succ n ih =>
    intro i hi hlen
    have hil : i < items.length := by omega
    rw [writeItemsFrom]
    simp only [hi, if_pos]
    rw [List.drop_eq_getElem_cons hil, List.take_succ_cons, List.foldr_cons,
      ih (i + 1) (by omega) (by omega), List.getD_eq_getElem items [] hil]

theorem joinSep_cons_foldr (x : List Char) (xs : List (List Char)) :
    joinSep "; ".data (x :: xs) =
      x ++ xs.foldr (fun y acc => "; ".data ++ y ++ acc) [] := by
  induction xs generalizing x with
  | nil => simp [joinSep]
  | cons y ys ih => simp [joinSep, ih y]

theorem writeItemsFrom_eq_joinSep (items : List (List Char)) (count : Nat)
    (h : count ≤ items.length) :
    writeItemsFrom items count 0 = joinSep "; ".data (items.take count) := by
  cases count with
  | zero => simp [writeItemsFrom, joinSep]
  | succ m =>
    cases items with
    | nil => simp at h
    | cons a t =>
      rw [writeItemsFrom]
      simp only [lt_irrefl, if_neg, List.nil_append]
      rw [writeItemsFrom_tail (a :: t) m 1 (by omega)
          (by simp only [List.length_cons] at h ⊢; omega),
        List.take_succ_cons, joinSep_cons_foldr]
      simp

/-- Claim C8.  For every non-empty requirement list condensed to at most
`maxItems` items, the condensed output is the category label, exactly the
first `maxItems` items in their original order (all items when the list has
at most `maxItems`), and a `" (+K more)"` suffix present if and only if
`K = length − maxItems` is strictly positive, followed by a newline. -/
theorem condenseRequirements_spec (category : List Char) (items : List (List Char))
    (maxItems : Nat) (h : items ≠ []) :
    condenseRequirements category items maxItems =
      category ++ ": ".data ++ joinSep "; ".data (items.take maxItems) ++
        (if maxItems < items.length then
          " (+".data ++ (Nat.repr (items.length - maxItems)).data ++ " more)".data
        else []) ++ "\n".data := by
  have hne : ¬ items.length = 0 := by simpa using h
  by_cases hgt : maxItems < items.length
  · rw [condenseRequirements]
    simp only [if_neg hne, gt_iff_lt, if_pos hgt,
      writeItemsFrom_eq_joinSep items maxItems (le_of_lt hgt)]
  · rw [condenseRequirements]
    simp only [if_neg hne, gt_iff_lt, if_neg hgt,
      writeItemsFrom_eq_joinSep items items.length le_rfl, List.take_length,
      List.take_of_length_le (le_of_not_lt hgt)]

/-- Witness for claim C8: four items condensed to three yield the first
three in order plus a `" (+1 more)"` suffix. -/
theorem condenseRequirements_spec_witness :
    (["CI".data, "Go".data, "SQL".data, "AWS".data] ≠ ([] : List (List Char))) ∧
    condenseRequirements "Experience".data
        ["CI".data, "Go".data, "SQL".data, "AWS".data] 3 =
      "Experience".data ++ ": ".data ++
        joinSep "; ".data (["CI".data, "Go".data, "SQL".data, "AWS".data].take 3) ++
        (if 3 < (["CI".data, "Go".data, "SQL".data, "AWS".data] : List (List Char)).length then
          " (+".data ++
            (Nat.repr ((["CI".data, "Go".data, "SQL".data, "AWS".data] :
              List (List Char)).length - 3)).data ++ " more)".data
        else []) ++ "\n".data :=
  ⟨by decide, condenseRequirements_spec "Experience".data _ 3 (by decide)⟩

/-! ## Lemmas about the string helpers, towards the response-shape claim -/

theorem trimLeftSpace_cons_of_not_space {c : Char} (t : List Char)
    (hc : isSpaceChar c = false) : trimLeftSpace (c :: t) = c :: t := by
  simp [trimLeftSpace, hc]

theorem trimRightSpace_of_getLast {l : List Char} {c : Char}
    (h : l.getLast? = some c) (hc : isSpaceChar c = false) :
    trimRightSpace l = l := by
  have hrev : l.reverse.head? = some c := by rw [List.head?_reverse, h]
  cases hr : l.reverse with
  | nil => rw [hr] at hrev; simp at hrev
  | cons a t =>
    rw [hr] at hrev
    have ha : a = c := by simpa using hrev
    subst ha
    have hstep : trimLeftSpace l.reverse = l.reverse := by
      rw [hr]; exact trimLeftSpace_cons_of_not_space t hc
    rw [trimRightSpace, hstep, List.reverse_reverse]

theorem trimSpace_eq_self {l : List Char} {hd lst : Char}
    (hhd : l.head? = some hd) (hhdw : isSpaceChar hd = false)
    (hlst : l.getLast? = some lst) (hlstw : isSpaceChar lst = false) :
    trimSpace l = l := by
  cases hl : l with
  | nil => rw [hl] at hhd; simp at hhd
  | cons x t =>
    rw [hl] at hhd
    have hx : x = hd := by simpa using hhd
    subst hx
    rw [trimSpace, ← hl]
    have h1 : trimLeftSpace l = l := by
      rw [hl]; exact trimLeftSpace_cons_of_not_space t hhdw
    rw [h1, trimRightSpace_of_getLast hlst hlstw]

theorem trimRightSpace_append_ws (s : List Char) {e lst : Char}
    (he : isSpaceChar e = true)
    (hlst : s.getLast? = some lst) (hlstw : isSpaceChar lst = false) :
    trimRightSpace (s ++ [e]) = s := by
  rw [trimRightSpace, List.reverse_append]
  simp only [List.reverse_cons, List.reverse_nil, List.nil_append,
    List.singleton_append]
  rw [trimLeftSpace]
  simp only [he, if_pos]
  have hrev : s.reverse.head? = some lst := by rw [List.head?_reverse, hlst]
  cases hr : s.reverse with
  | nil => rw [hr] at hrev; simp at hrev
  | cons a t =>
    rw [hr] at hrev
    have ha : a = lst := by simpa using hrev
    subst ha
    rw [trimLeftSpace_cons_of_not_space t hlstw, ← hr, List.reverse_reverse]

theorem trimSpace_cons_append (s : List Char) {b e hd lst : Char}
    (hb : isSpaceChar b = true) (he : isSpaceChar e = true)
    (hhd : s.head? = some hd) (hhdw : isSpaceChar hd = false)
    (hlst : s.getLast? = some lst) (hlstw : isSpaceChar lst = false) :
    trimSpace (b :: (s ++ [e])) = s := by
  rw [trimSpace, trimLeftSpace]
  simp only [hb, if_pos]
  cases hs : s with
  | nil => rw [hs] at hhd; simp at hhd
  | cons x t =>
    rw [hs] at hhd hlst
    have hx : x = hd := by simpa using hhd
    subst hx
    rw [List.cons_append, trimLeftSpace_cons_of_not_space _ hhdw, ← List.cons_append]
    exact trimRightSpace_append_ws (x :: t) he hlst hlstw

theorem skipJsonWs_append (a b : List Char) :
    skipJsonWs (a ++ b) =
      if skipJsonWs a = [] then skipJsonWs b else skipJsonWs a ++ b := by
  induction a with
  | nil => simp [skipJsonWs]
  | cons c t ih =>
    by_cases hc : isJsonWs c
    · simp [skipJsonWs, hc, ih]
    · simp [skipJsonWs, hc]

theorem mem_skipJsonWs {l : List Char} {x : Char} (h : x ∈ skipJsonWs l) :
    x ∈ l := by
  induction l with
  | nil => simp [skipJsonWs] at h
  | cons c t ih =>
    by_cases hc : isJsonWs c
    · simp only [skipJsonWs, hc, if_pos] at h
      exact List.mem_cons_of_mem c (ih h)
    · simpa [skipJsonWs, hc] using h

theorem isPrefixOf_append_self (a b : List Char) : a.isPrefixOf (a ++ b) = true := by
  induction a with
  | nil => simp [List.isPrefixOf]
  | cons x t ih => simp [List.isPrefixOf, ih]

theorem containsSub_of_isPre {hay sub : List Char}
    (h : sub.isPrefixOf hay = true) : containsSub hay sub = true := by
  cases hay with
  | nil =>
    cases sub with
    | nil => simp [containsSub]
    | cons a t => simp [List.isPrefixOf] at h
  | cons a t => simp [containsSub, h]

theorem trimPrefixL_append (a b : List Char) : trimPrefixL (a ++ b) a = b := by
  rw [trimPrefixL, if_pos (isPrefixOf_append_self a b), List.drop_left]

theorem trimSuffixL_append (x suf : List Char) : trimSuffixL (x ++ suf) suf = x := by
  rw [trimSuffixL]
  have hcond : (x ++ suf).reverse.take suf.length = suf.reverse := by
    rw [List.reverse_append]
    conv_lhs => rw [show suf.length = suf.reverse.length by simp]
    rw [List.take_left]
  rw [if_pos hcond, List.length_append, Nat.add_sub_cancel, List.take_left]

theorem idxOfChar_append_head {a b : List Char} {c : Char} (ha : c ∉ a)
    (hb : b.head? = some c) : idxOfChar (a ++ b) c = (a.length : Int) := by
  induction a with
  | nil =>
    cases hbb : b with
    | nil => rw [hbb] at hb; simp at hb
    | cons x t =>
      rw [hbb] at hb
      have hx : x = c := by simpa using hb
      subst hx
      simp [idxOfChar]
  | cons x t ih =>
    have hx : ¬ x = c := by
      intro e; exact ha (by simp [e])
    have ht : c ∉ t := fun m => ha (List.mem_cons_of_mem _ m)
    rw [List.cons_append, idxOfChar]
    simp only [hx, if_neg, if_false]
    rw [ih ht]
    have hne : ¬ ((t.length : Int)) = -1 := by omega
    simp only [hne, if_neg, if_false, List.length_cons]
    push_cast
    ring

theorem lastIdxOfChar_append {a s b : List Char} {c : Char} (hbnot : c ∉ b)
    (hs : s.getLast? = some c) :
    lastIdxOfChar (a ++ s ++ b) c = (a.length : Int) + s.length - 1 := by
  have hrev : (a ++ s ++ b).reverse = b.reverse ++ (s.reverse ++ a.reverse) := by
    simp [List.reverse_append, List.append_assoc]
  have hnb : c ∉ b.reverse := by simpa using hbnot
  have hhead : (s.reverse ++ a.reverse).head? = some c := by
    have h1 : s.reverse.head? = some c := by rw [List.head?_reverse, hs]
    cases hsr : s.reverse with
    | nil => rw [hsr] at h1; simp at h1
    | cons x t =>
      rw [hsr] at h1
      have hx : x = c := by simpa using h1
      subst hx
      simp
  have hidx : idxOfChar (a ++ s ++ b).reverse c = (b.reverse.length : Int) := by
    rw [hrev]; exact idxOfChar_append_head hnb hhead
  rw [lastIdxOfChar, hidx]
  have hne : ¬ ((b.reverse.length : Int)) = -1 := by omega
  simp only [hne, if_neg, if_false, List.length_reverse, List.length_append]
  push_cast
  ring

theorem parseTopObject_eq_none {cs : List Char} {c : Char} {rest : List Char}
    (h : skipJsonWs cs = c :: rest) (hc : c ≠ '{') : parseTopObject cs = none := by
  rw [parseTopObject, h]
  split
  · next heq =>
    exfalso
    exact hc (by simpa using congrArg List.head? heq)
  · rfl

theorem unmarshalScores_error_of_head {cs : List Char} {c : Char} {rest : List Char}
    (h : skipJsonWs cs = c :: rest) (hc : c ≠ '{') :
    unmarshalScores cs = .error "invalid JSON".data := by
  rw [unmarshalScores, parseTopObject_eq_none h hc]

theorem two_le_length_of_braces {l : List Char}
    (hh : l.head? = some '{') (hl : l.getLast? = some '}') : 2 ≤ l.length := by
  cases l with
  | nil => simp at hh
  | cons a t =>
    cases t with
    | nil =>
      simp only [List.head?_cons, Option.some.injEq] at hh
      simp only [List.getLast?_singleton, Option.some.injEq] at hl
      rw [hh] at hl
      exact absurd hl (by decide)
    | cons b u => simp only [List.length_cons]; omega

/-- A valid structured record wrapped in a markdown code fence, the second
response shape of the decoding protocol. -/
def fenceWrap (s : List Char) : List Char :=
  "```json\n".data ++ s ++ "\n```".data

theorem fenceWrap_decomp (s : List Char) :
    fenceWrap s = fenceMarker ++ (('\n' :: (s ++ ['\n'])) ++ "```".data) := by
  rw [fenceWrap, fenceMarker,
    show "```json\n".data = "```json".data ++ ['\n'] from rfl,
    show "\n```".data = '\n' :: "```".data from rfl]
  simp [List.append_assoc]

theorem stripFencesStep_fence (s : List Char) {hd lst : Char}
    (hhd : s.head? = some hd) (hhdw : isSpaceChar hd = false)
    (hlst : s.getLast? = some lst) (hlstw : isSpaceChar lst = false) :
    stripFencesStep (fenceWrap s) = s := by
  have hWhole : trimSpace (fenceWrap s) = fenceWrap s := by
    have hh : (fenceWrap s).head? = some '`' := by
      rw [show fenceWrap s = '`' :: ("``json\n".data ++ s ++ "\n```".data) from rfl]
      simp
    have hg : (fenceWrap s).getLast? = some '`' := by
      rw [fenceWrap,
        List.getLast?_append_of_ne_nil ("```json\n".data ++ s) (by decide)]
      rfl
    exact trimSpace_eq_self hh (by decide) hg (by decide)
  rw [stripFencesStep, hWhole]
  have hpre : fenceMarker.isPrefixOf (fenceWrap s) = true := by
    rw [fenceWrap_decomp]
    exact isPrefixOf_append_self fenceMarker _
  rw [if_pos hpre, fenceWrap_decomp, trimPrefixL_append,
    show ('\n' :: (s ++ ['\n'])) ++ "```".data =
      ('\n' :: (s ++ ['\n'])) ++ "```".data from rfl,
    trimSuffixL_append ('\n' :: (s ++ ['\n'])) "```".data]
  exact trimSpace_cons_append s (by decide) (by decide) hhd hhdw hlst hlstw

theorem parseScores_shape_direct {s : List Char} {R : Scores}
    (hok : unmarshalScores s = .ok R)
    (hnf : containsSub s fenceMarker = false) :
    parseScores s = .ok R := by
  rw [parseScores, hnf]
  simp only [Bool.false_eq_true, if_false, hok]

theorem parseScores_shape_fenced {s : List Char} {R : Scores}
    (hok : unmarshalScores s = .ok R)
    (hhd : s.head? = some '{') (hlst : s.getLast? = some '}') :
    parseScores (fenceWrap s) = .ok R := by
  have hc : containsSub (fenceWrap s) fenceMarker = true := by
    apply containsSub_of_isPre
    rw [fenceWrap_decomp]
    exact isPrefixOf_append_self fenceMarker _
  have hstrip : stripFencesStep (fenceWrap s) = s :=
    stripFencesStep_fence s hhd (by decide) hlst (by decide)
  rw [parseScores, hc]
  simp only [if_true, hstrip, hok]

theorem parseScores_shape_embedded {s pre post : List Char} {R : Scores}
    (hok : unmarshalScores s = .ok R)
    (hhd : s.head? = some '{') (hlst : s.getLast? = some '}')
    (hnf : containsSub (pre ++ s ++ post) fenceMarker = false)
    (hpre : '{' ∉ pre) (hpost : '}' ∉ post)
    (hprose : skipJsonWs pre ≠ []) :
    parseScores (pre ++ s ++ post) = .ok R := by
  have hslen : 2 ≤ s.length := two_le_length_of_braces hhd hlst
  obtain ⟨c, rest, hcr⟩ : ∃ c rest, skipJsonWs pre = c :: rest := by
    cases hcp : skipJsonWs pre with
    | nil => exact absurd hcp hprose
    | cons c r => exact ⟨c, r, rfl⟩
  have hcmem : c ∈ pre := mem_skipJsonWs (by rw [hcr]; simp)
  have hcne : c ≠ '{' := fun e => hpre (e ▸ hcmem)
  have hskip : skipJsonWs (pre ++ s ++ post) = c :: (rest ++ (s ++ post)) := by
    rw [List.append_assoc, skipJsonWs_append, hcr]
    simp
  have hfail := unmarshalScores_error_of_head hskip hcne
  have hheadsp : (s ++ post).head? = some '{' := by
    cases hsc : s with
    | nil => rw [hsc] at hhd; simp at hhd
    | cons x t =>
      rw [hsc] at hhd
      have hx : x = '{' := by simpa using hhd
      subst hx
      simp
  have hidx : idxOfChar (pre ++ s ++ post) '{' = (pre.length : Int) := by
    rw [List.append_assoc]
    exact idxOfChar_append_head hpre hheadsp
  have hlast : lastIdxOfChar (pre ++ s ++ post) '}' =
      (pre.length : Int) + s.length - 1 :=
    lastIdxOfChar_append hpost hlst
  rw [parseScores, hnf]
  simp only [Bool.false_eq_true, if_false, hfail]
  rw [extractBetweenBraces, hidx, hlast]
  have hcond : ¬ ((pre.length : Int) = -1 ∨ (pre.length : Int) + s.length - 1 = -1 ∨
      (pre.length : Int) ≥ (pre.length : Int) + s.length - 1) := by
    push_neg
    refine ⟨by omega, by omega, by omega⟩
  have hslice : ((pre ++ s ++ post).drop ((pre.length : Int)).toNat).take
      (((pre.length : Int) + s.length - 1).toNat + 1 - ((pre.length : Int)).toNat) = s := by
    have h1 : ((pre.length : Int)).toNat = pre.length := by omega
    have h2 : ((pre.length : Int) + s.length - 1).toNat = pre.length + s.length - 1 := by
      omega
    rw [h1, h2]
    have h3 : pre.length + s.length - 1 + 1 - pre.length = s.length := by omega
    rw [h3, List.append_assoc, List.drop_left, List.take_left]
  simp only [ge_iff_le, decide_eq_true_eq, Bool.or_eq_true, decide_eq_true_iff]
  rw [if_neg (by simpa using hcond)]
  rw [hslice, hok]

/-- Claim C4.  For every valid structured score record, response decoding
succeeds and returns the same `Scores` value on all three response shapes:
the bare record, the record wrapped in a fenced code block, and the record
embedded in surrounding prose (recovered as the substring from the first
opening brace to the globally last closing brace, so the prose may not
contain braces on the relevant side); the strategies are attempted in the
order direct-parse, fence-strip, brace-extraction. -/
theorem parseScores_three_shapes (R : Scores) (s pre post : List Char)
    (hok : unmarshalScores s = .ok R)
    (hhd : s.head? = some '{') (hlst : s.getLast? = some '}')
    (hnf : containsSub s fenceMarker = false)
    (hnf3 : containsSub (pre ++ s ++ post) fenceMarker = false)
    (hpre : '{' ∉ pre) (hpost : '}' ∉ post)
    (hprose : skipJsonWs pre ≠ []) :
    parseScores s = .ok R ∧
    parseScores (fenceWrap s) = .ok R ∧
    parseScores (pre ++ s ++ post) = .ok R :=
  ⟨parseScores_shape_direct hok hnf,
   parseScores_shape_fenced hok hhd hlst,
   parseScores_shape_embedded hok hhd hlst hnf3 hpre hpost hprose⟩

/-- Concrete valid structured score record used to witness the three
response shapes. -/
def c4Bare : List Char :=
  ("\x7b\"experience_score\": 45, \"experience_reasoning\": \"strong\", " ++
   "\"education_score\": 18, \"education_reasoning\": \"good\", " ++
   "\"duties_score\": 17, \"duties_reasoning\": \"ok\", " ++
   "\"cover_letter_score\": 8, \"cover_letter_reasoning\": \"brief\"\x7d").data

/-- The `Scores` value `c4Bare` decodes to. -/
def c4Scores : Scores :=
  ⟨45, 18, 17, 8, 0, "strong".data, "good".data, "ok".data, "brief".data⟩

/-- Leading prose for the embedded response shape. -/
def c4Pre : List Char := "Here is my evaluation: ".data

/-- Trailing prose for the embedded response shape. -/
def c4Post : List Char := " Hope this helps.".data

set_option maxRecDepth 8000 in
/-- Witness for claim C4: the concrete record decodes identically as a bare
record, fenced, and embedded in prose. -/
theorem parseScores_three_shapes_witness :
    unmarshalScores c4Bare = .ok c4Scores ∧
    parseScores c4Bare = .ok c4Scores ∧
    parseScores (fenceWrap c4Bare) = .ok c4Scores ∧
    parseScores (c4Pre ++ c4Bare ++ c4Post) = .ok c4Scores := by
  have hok : unmarshalScores c4Bare = .ok c4Scores := by rfl
  have h := parseScores_three_shapes c4Scores c4Bare c4Pre c4Post hok
    (by decide) (by decide) (by decide) (by decide) (by decide) (by decide)
    (by decide)
  exact ⟨hok, h.1, h.2.1, h.2.2⟩

/-! ## The evaluation loop (`agent.go`, context variant of `processApplicants`)

The agent is modelled with the evaluator as an oracle
`eval : Nat → Nat → Except (List Char) Scores` giving the outcome of
`scorer.ScoreApplicant` for record index `i` at retry attempt `a`, and the
caller's `context.Context` as `cancelAt : Option Nat`: the cancellation
checks a run executes are numbered in order, and check number `t` observes
`ctx.Done()` exactly when `cancelAt = some k` with `k ≤ t`.  In the
evaluation loop one check happens per iteration, so check `i` belongs to
record `i`.  `time.Sleep` calls are recorded (in seconds) instead of
performed. -/

/-- Rate limiting constants of `agent.go` (Gemini free tier). -/
def requestDelay : Nat := 4

/-- Maximum retry attempts for rate-limit errors (`maxRetries`). -/
def maxRetries : Nat := 3

/-- Backoff delay in seconds between rate-limit retries (`retryBackoff`). -/
def retryBackoff : Nat := 10

/-- `isRateLimitError` from `agent.go`: `nil` is not a rate-limit error;
otherwise match the four known substrings. -/
def isRateLimitError : Option (List Char) → Bool
  | none => false
  | some errMsg =>
    containsSub errMsg "ResourceExhausted".data ||
    containsSub errMsg "429".data ||
    containsSub errMsg "rate limit".data ||
    containsSub errMsg "quota".data

/-- A progress triple handed to the progress callback. -/
structure Triple where
  current : Nat
  total : Nat
  message : List Char
deriving DecidableEq

/-- The model's only run-level error: the caller's `ctx.Err()`. -/
inductive CancelError where
  | canceled
deriving DecidableEq

/-- The retry loop of `processApplicants`
(`for attempt := 0; attempt < maxRetries; attempt++`), with `fuel` the
remaining iterations `maxRetries - attempt`.  Returns the scored result (or
`none` when the record is skipped), the number of `ScoreApplicant` calls
made, the `time.Sleep` durations performed, and the progress triples
reported from inside the loop. -/
def retryLoop (eval : Nat → Except (List Char) Scores) (name : List Char)
    (progress : Nat) : Nat → Nat → Option Scores × Nat × List Nat × List Triple
  | 0, _ => (none, 0, [], [])
  | fuel + 1, attempt =>
    match eval attempt with
    | .ok s => (some s, 1, [], [])
    | .error e =>
      if isRateLimitError (some e) && decide (attempt < maxRetries - 1) then
        let msg := "Rate limit - retrying ".data ++ name ++ " (attempt ".data ++
          (Nat.repr (attempt + 1)).data ++ "/".data ++ (Nat.repr maxRetries).data ++
          ")".data
        let rest := retryLoop eval name progress fuel (attempt + 1)
        (rest.1, rest.2.1 + 1, retryBackoff :: rest.2.2.1, ⟨progress, 100, msg⟩ :: rest.2.2.2)
      else (none, 1, [], [])

/-- One record's evaluation with the retry policy of `processApplicants`. -/
def scoreWithRetry (eval : Nat → Except (List Char) Scores) (name : List Char)
    (progress : Nat) : Option Scores × Nat × List Nat × List Triple :=
  retryLoop eval name progress maxRetries 0

/-- The cancellation signal at a given checkpoint. -/
def cancelled (cancelAt : Option Nat) (tick : Nat) : Bool :=
  match cancelAt with
  | some k => decide (k ≤ tick)
  | none => false

/-- The per-record loop of `processApplicants` (context variant): check
cancellation at the top of each iteration, report progress
`60 + 35*i/n`, evaluate with retries, collect successful results, sleep the
inter-request delay between records.  Returns the collected
`(name, scores)` pairs or the cancellation error, the total number of
`ScoreApplicant` calls, and the reported progress triples. -/
def processLoop (cancelAt : Option Nat) (eval : Nat → Nat → Except (List Char) Scores)
    (n : Nat) : Nat → List (List Char) →
      Except CancelError (List (List Char × Scores)) × Nat × List Triple
  | _, [] => (.ok [], 0, [])
  | i, name :: rest =>
    if cancelled cancelAt i then (.error .canceled, 0, [])
    else
      let progress := 60 + 35 * i / n
      let evalMsg := "Evaluating ".data ++ name ++ " (".data ++
        (Nat.repr (i + 1)).data ++ "/".data ++ (Nat.repr n).data ++ ")".data
      let (res, calls, _, retryTr) := scoreWithRetry (eval i) name progress
      let delayTr : List Triple :=
        if i < n - 1 then
          [⟨progress, 100, "Rate limit delay before next applicant...".data⟩]
        else []
      let (restRes, restCalls, restTr) := processLoop cancelAt eval n (i + 1) rest
      match restRes with
      | .error e =>
        (.error e, calls + restCalls, ⟨progress, 100, evalMsg⟩ :: retryTr ++ delayTr ++ restTr)
      | .ok entries =>
        (.ok (match res with
          | some s => (name, s) :: entries
          | none => entries),
         calls + restCalls, ⟨progress, 100, evalMsg⟩ :: retryTr ++ delayTr ++ restTr)

/-- `processApplicants` (context variant): run the per-record loop from
index 0, then report 95%, sort, assign ranks and report 100%; cancellation
aborts before ranking, propagating `ctx.Err()`. -/
def processApplicants (cancelAt : Option Nat)
    (eval : Nat → Nat → Except (List Char) Scores) (docs : List (List Char)) :
    Except CancelError (List ApplicantResult) × Nat × List Triple :=
  match processLoop cancelAt eval docs.length 0 docs with
  | (.error e, calls, tr) => (.error e, calls, tr)
  | (.ok entries, calls, tr) =>
    (.ok (rankResults (entries.map (fun p => ⟨p.1, p.2, 0⟩))), calls,
     tr ++ [⟨95, 100, "Ranking candidates...".data⟩,
            ⟨100, 100, "Processing complete!".data⟩])

theorem retryLoop_indep (eval : Nat → Except (List Char) Scores)
    (name name' : List Char) (p p' : Nat) :
    ∀ f a, (retryLoop eval name p f a).1 = (retryLoop eval name' p' f a).1 ∧
      (retryLoop eval name p f a).2.1 = (retryLoop eval name' p' f a).2.1 ∧
      (retryLoop eval name p f a).2.2.1 = (retryLoop eval name' p' f a).2.2.1 := by
  intro f
  induction f with
  | zero => intro a; simp [retryLoop]
  | succ f ih =>
    intro a
    cases he : eval a with
    | ok s => simp [retryLoop, he]
    | error e =>
      by_cases hrl : (isRateLimitError (some e) && decide (a < maxRetries - 1)) = true
      · simp only [retryLoop, he, hrl, if_pos]
        exact ⟨(ih (a + 1)).1, by simp [(ih (a + 1)).2.1], by simp [(ih (a + 1)).2.2]⟩
      · simp [retryLoop, he, hrl]

theorem retryLoop_calls_le (eval : Nat → Except (List Char) Scores)
    (name : List Char) (p : Nat) :
    ∀ f a, (retryLoop eval name p f a).2.1 ≤ f := by
  intro f
  induction f with
  | zero => intro a; simp [retryLoop]
  | succ f ih =>
    intro a
    cases he : eval a with
    | ok s => simp [retryLoop, he]
    | error e =>
      by_cases hrl : (isRateLimitError (some e) && decide (a < maxRetries - 1)) = true
      · simp only [retryLoop, he, hrl, if_pos]
        have := ih (a + 1)
        omega
      · simp [retryLoop, he, hrl]

theorem processLoop_none_ok (eval : Nat → Nat → Except (List Char) Scores)
    (n : Nat) : ∀ docs i, (∃ entries,
      (processLoop none eval n i docs).1 = .ok entries) ∧
      (processLoop none eval n i docs).2.1 =
        ((List.range' i docs.length).map
          (fun j => (scoreWithRetry (eval j) [] 0).2.1)).sum := by
  intro docs
  induction docs with
  | nil => intro i; exact ⟨⟨[], rfl⟩, rfl⟩
  | cons name rest ih =>
    intro i
    have hcan : cancelled none i = false := rfl
    obtain ⟨⟨entries, hent⟩, hcalls⟩ := ih (i + 1)
    have hindep := retryLoop_indep (eval i) name [] (60 + 35 * i / n) 0 maxRetries 0
    constructor
    · refine ⟨?_, ?_⟩
      · exact (match (scoreWithRetry (eval i) name (60 + 35 * i / n)).1 with
          | some s => (name, s) :: entries
          | none => entries)
      · simp only [processLoop, hcan, Bool.false_eq_true, if_false]
        rw [show (processLoop none eval n (i + 1) rest) =
          ((processLoop none eval n (i + 1) rest).1,
           (processLoop none eval n (i + 1) rest).2.1,
           (processLoop none eval n (i + 1) rest).2.2) from rfl, hent]
    · simp only [processLoop, hcan, Bool.false_eq_true, if_false,
        List.range'_succ, List.map_cons, List.sum_cons]
      rw [show (processLoop none eval n (i + 1) rest) =
        ((processLoop none eval n (i + 1) rest).1,
         (processLoop none eval n (i + 1) rest).2.1,
         (processLoop none eval n (i + 1) rest).2.2) from rfl, hent]
      cases hres : (scoreWithRetry (eval i) name (60 + 35 * i / n)).1 <;>
        simp [scoreWithRetry, hindep.2.1, hcalls, List.range'_succ]

/-- Claim C6.  In the evaluation loop: a record whose evaluator call fails
with a rate-limit-classified error every time is attempted exactly 3 times
with a fixed 10-second backoff between attempts and then skipped; a record
whose evaluator call fails with a non-rate-limit error is skipped
immediately after 1 attempt with no backoff; and the batch never aborts —
with no cancellation the loop reaches every record (the total number of
evaluator calls is the sum of each record's attempts) and ends in a
successful result list. -/
theorem processApplicants_retry_policy :
    (∀ (eval : Nat → Except (List Char) Scores) (name : List Char) (p : Nat),
      (∀ k, k < maxRetries → ∃ e, eval k = .error e ∧
        isRateLimitError (some e) = true) →
      (scoreWithRetry eval name p).1 = none ∧
      (scoreWithRetry eval name p).2.1 = 3 ∧
      (scoreWithRetry eval name p).2.2.1 = [retryBackoff, retryBackoff]) ∧
    (∀ (eval : Nat → Except (List Char) Scores) (name : List Char) (p : Nat)
      (e : List Char), eval 0 = .error e → isRateLimitError (some e) = false →
      (scoreWithRetry eval name p).1 = none ∧
      (scoreWithRetry eval name p).2.1 = 1 ∧
      (scoreWithRetry eval name p).2.2.1 = []) ∧
    (∀ (eval : Nat → Nat → Except (List Char) Scores) (docs : List (List Char)),
      (∃ rs, (processApplicants none eval docs).1 = .ok rs) ∧
      (processApplicants none eval docs).2.1 =
        ((List.range docs.length).map
          (fun j => (scoreWithRetry (eval j) [] 0).2.1)).sum) := by
  refine ⟨?_, ?_, ?_⟩
  · intro eval name p h
    obtain ⟨e0, h0, hr0⟩ := h 0 (by decide)
    obtain ⟨e1, h1, hr1⟩ := h 1 (by decide)
    obtain ⟨e2, h2, hr2⟩ := h 2 (by decide)
    simp [scoreWithRetry, maxRetries, retryLoop, h0, h1, h2, hr0, hr1, hr2]
  · intro eval name p e h0 hr0
    simp [scoreWithRetry, maxRetries, retryLoop, h0, hr0]
  · intro eval docs
    obtain ⟨⟨entries, hent⟩, hcalls⟩ := processLoop_none_ok eval docs.length docs 0
    constructor
    · refine ⟨rankResults (entries.map (fun p => ⟨p.1, p.2, 0⟩)), ?_⟩
      rw [processApplicants]
      rw [show (processLoop none eval docs.length 0 docs) =
        ((processLoop none eval docs.length 0 docs).1,
         (processLoop none eval docs.length 0 docs).2.1,
         (processLoop none eval docs.length 0 docs).2.2) from rfl, hent]
    · rw [processApplicants]
      rw [show (processLoop none eval docs.length 0 docs) =
        ((processLoop none eval docs.length 0 docs).1,
         (processLoop none eval docs.length 0 docs).2.1,
         (processLoop none eval docs.length 0 docs).2.2) from rfl, hent]
      simpa [List.range_eq_range'] using hcalls

/-- Witness for claim C6: a concrete always-rate-limited evaluator is tried
3 times with two 10-second backoffs, and a concrete non-rate-limit failure
is skipped after a single attempt. -/
theorem processApplicants_retry_policy_witness :
    ((scoreWithRetry (fun _ => .error "rate limit exceeded".data) "Bob".data 60).1 = none ∧
     (scoreWithRetry (fun _ => .error "rate limit exceeded".data) "Bob".data 60).2.1 = 3 ∧
     (scoreWithRetry (fun _ => .error "rate limit exceeded".data) "Bob".data 60).2.2.1 =
       [retryBackoff, retryBackoff]) ∧
    ((scoreWithRetry (fun _ => .error "connection timeout".data) "Bob".data 60).1 = none ∧
     (scoreWithRetry (fun _ => .error "connection timeout".data) "Bob".data 60).2.1 = 1 ∧
     (scoreWithRetry (fun _ => .error "connection timeout".data) "Bob".data 60).2.2.1 = []) :=
  ⟨processApplicants_retry_policy.1 (fun _ => .error "rate limit exceeded".data)
      "Bob".data 60
      (fun k _ => ⟨"rate limit exceeded".data, rfl, by decide⟩),
   processApplicants_retry_policy.2.1 (fun _ => .error "connection timeout".data)
      "Bob".data 60 "connection timeout".data rfl (by decide)⟩

theorem processLoop_cancel (eval : Nat → Nat → Except (List Char) Scores) (n k : Nat) :
    ∀ docs i, i ≤ k → k < i + docs.length →
      (processLoop (some k) eval n i docs).1 = .error .canceled ∧
      (processLoop (some k) eval n i docs).2.1 =
        ((List.range' i (k - i)).map
          (fun j => (scoreWithRetry (eval j) [] 0).2.1)).sum := by
  intro docs
  induction docs with
  | nil =>
    intro i h1 h2
    simp only [List.length_nil, Nat.add_zero] at h2
    omega
  | cons name rest ih =>
    intro i h1 h2
    by_cases hik : k ≤ i
    · have hcan : cancelled (some k) i = true := by simp [cancelled, hik]
      have hki : k - i = 0 := by omega
      simp [processLoop, hcan, hki]
    · have hcan : cancelled (some k) i = false := by
        simp only [cancelled, decide_eq_false_iff_not]
        omega
      obtain ⟨hres, hcalls⟩ :=
        ih (i + 1) (by omega) (by simp only [List.length_cons] at h2; omega)
      simp only [processLoop, hcan, Bool.false_eq_true, if_false]
      rw [show (processLoop (some k) eval n (i + 1) rest) =
        ((processLoop (some k) eval n (i + 1) rest).1,
         (processLoop (some k) eval n (i + 1) rest).2.1,
         (processLoop (some k) eval n (i + 1) rest).2.2) from rfl, hres]
      refine ⟨rfl, ?_⟩
      have hrange : List.range' i (k - i) = i :: List.range' (i + 1) (k - i - 1) := by
        have hsplit : k - i = (k - i - 1) + 1 := by omega
        rw [hsplit, List.range'_succ]
        simp
      rw [hrange]
      have hindep := retryLoop_indep (eval i) name [] (60 + 35 * i / n) 0 maxRetries 0
      have hsub : k - (i + 1) = k - i - 1 := by omega
      simp [scoreWithRetry, hindep.2.1, hcalls, hsub]

/-! ## The Gmail fetch (`gmail_handler.go`, context variant)

`FetchAttachmentsWithContext` is modelled against an explicit environment:
the page structure of the message listing is given as `pages` (a list of
pages, each a list of message ids; the `NextPageToken` is non-empty exactly
for the non-final pages, and the list call itself is assumed to succeed),
and the per-message service behaviour as a `GmailEnv`.  The sender name
produced by `extractSenderName` is part of the message value.  Cancellation
checks are globally numbered in execution order (page iterations, then for
each item: the item check followed by the checks of its retry attempts). -/

/-- One attachment part of a Gmail message (`Filename`, `Body.AttachmentId`). -/
structure GPart where
  filename : List Char
  attachmentId : List Char
deriving DecidableEq

/-- A fetched Gmail message: the sender display name (as extracted by
`extractSenderName`) and its payload parts. -/
structure GMessage where
  sender : List Char
  parts : List GPart
deriving DecidableEq

/-- The remote service and file system as oracles: `msgGet` is
`Users.Messages.Get` for a message id at a given retry attempt, `attGet` is
`Users.Messages.Attachments.Get`, `b64decode` is `base64.URLEncoding
.DecodeString`, `writeFile` is `ioutil.WriteFile` (`none` = success,
`some e` = error). -/
structure GmailEnv where
  msgGet : List Char → Nat → Except (List Char) GMessage
  attGet : List Char → List Char → Except (List Char) (List Char)
  b64decode : List Char → Except (List Char) (List Char)
  writeFile : List Char → List Char → Option (List Char)

/-- `filepath.Ext`: the suffix from the final dot (inclusive), empty when
there is no dot. -/
def fileExt (f : List Char) : List Char :=
  if lastIdxOfChar f '.' = -1 then [] else f.drop (lastIdxOfChar f '.').toNat

/-- `strings.ToLower` on the ASCII content the handlers deal with. -/
def toLowerL (l : List Char) : List Char :=
  l.map Char.toLower

/-- The attachment renaming of `processMessageWithRetry`: CV-like names
become `<sender>_CV<ext>`, cover-letter-like names
`<sender>_CoverLetter<ext>`, anything else `<sender>_<filename>`. -/
def partNewFilename (sender filename : List Char) : List Char :=
  let ext := fileExt filename
  let baseName := trimSuffixL filename ext
  if containsSub (toLowerL baseName) "cv".data ||
      containsSub (toLowerL baseName) "resume".data then
    sender ++ "_CV".data ++ ext
  else if containsSub (toLowerL baseName) "cover".data ||
      containsSub (toLowerL baseName) "letter".data then
    sender ++ "_CoverLetter".data ++ ext
  else
    sender ++ "_".data ++ filename

/-- The inner parts loop of one `processMessageWithRetry` attempt: download,
decode and write each attachment part, recording the last error and whether
any part had an attachment; failures of individual parts are recorded in
`lastErr` and the loop continues.  Returns
`(lastErr, hasAttachments, files written)`. -/
def processParts (env : GmailEnv) (msgId sender : List Char) :
    List GPart → Option (List Char) →
      Option (List Char) × Bool × List (List Char × List Char)
  | [], lastErr => (lastErr, false, [])
  | p :: rest, lastErr =>
    if p.filename ≠ [] && p.attachmentId ≠ [] then
      match env.attGet msgId p.attachmentId with
      | .error e =>
        let r := processParts env msgId sender rest
          (some ("unable to retrieve attachment: ".data ++ e))
        (r.1, true, r.2.2)
      | .ok rawData =>
        match env.b64decode rawData with
        | .error e =>
          let r := processParts env msgId sender rest
            (some ("unable to decode attachment: ".data ++ e))
          (r.1, true, r.2.2)
        | .ok bytes =>
          let newName := partNewFilename sender p.filename
          match env.writeFile newName bytes with
          | some e =>
            let r := processParts env msgId sender rest
              (some ("unable to write file: ".data ++ e))
            (r.1, true, r.2.2)
          | none =>
            let r := processParts env msgId sender rest lastErr
            (r.1, true, (newName, bytes) :: r.2.2)
    else
      let r := processParts env msgId sender rest lastErr
      (r.1, r.2.1, r.2.2)

/-- The outcome of processing one message, plus its observable effects:
number of `Users.Messages.Get` calls, recorded sleeps (seconds), files
written, and cancellation checkpoints consumed. -/
structure RetryOut where
  outcome : Except CancelError (Option (List Char))
  getCalls : Nat
  sleeps : List Nat
  written : List (List Char × List Char)
  ticks : Nat

/-- The attempt loop of `processMessageWithRetry`
(`for attempt := 0; attempt <= retries; attempt++`), with `fuel` the number
of remaining iterations: check cancellation, sleep `attempt` seconds before
each retry, get the message, process its parts; return success as soon as an
attempt sees an attachment part, otherwise loop and finally return the last
recorded error (`nil` when nothing failed). -/
def msgRetryLoop (env : GmailEnv) (cancelAt : Option Nat) (msgId : List Char) :
    Nat → Nat → Nat → Option (List Char) → RetryOut
  | 0, _, _, lastErr => ⟨.ok lastErr, 0, [], [], 0⟩
  | fuel + 1, attempt, tick, lastErr =>
    if cancelled cancelAt tick then ⟨.error .canceled, 0, [], [], 1⟩
    else
      let sleeps0 : List Nat := if 0 < attempt then [attempt] else []
      match env.msgGet msgId attempt with
      | .error e =>
        let rest := msgRetryLoop env cancelAt msgId fuel (attempt + 1) (tick + 1)
          (some ("unable to retrieve message: ".data ++ e))
        ⟨rest.outcome, rest.getCalls + 1, sleeps0 ++ rest.sleeps, rest.written,
         rest.ticks + 1⟩
      | .ok msg =>
        let pr := processParts env msgId msg.sender msg.parts lastErr
        if pr.2.1 then ⟨.ok none, 1, sleeps0, pr.2.2, 1⟩
        else
          let rest := msgRetryLoop env cancelAt msgId fuel (attempt + 1) (tick + 1) pr.1
          ⟨rest.outcome, rest.getCalls + 1, sleeps0 ++ rest.sleeps,
           pr.2.2 ++ rest.written, rest.ticks + 1⟩

/-- `processMessageWithRetry(ctx, user, messageId, retries)` starting at
checkpoint `tick`: `retries + 1` loop iterations in total. -/
def processMessageWithRetry (env : GmailEnv) (cancelAt : Option Nat)
    (msgId : List Char) (retries tick : Nat) : RetryOut :=
  msgRetryLoop env cancelAt msgId (retries + 1) 0 tick none

/-- The paginated listing loop of `FetchAttachmentsWithContext`: check
cancellation before each page fetch, accumulate message ids, and report the
listing estimate `len(all)*20/100` after every page that announces a further
page token.  Returns the ids (or cancellation), the emitted triples, and the
checkpoints consumed. -/
def listPagesLoop (cancelAt : Option Nat) :
    List (List (List Char)) → Nat → Nat →
      Except CancelError (List (List Char)) × List Triple × Nat
  | [], _, _ => (.ok [], [], 0)
  | page :: rest, tick, count =>
    if cancelled cancelAt tick then (.error .canceled, [], 1)
    else
      match rest with
      | [] => (.ok page, [], 1)
      | _ =>
        let r := listPagesLoop cancelAt rest (tick + 1) (count + page.length)
        ((match r.1 with
          | .error e => .error e
          | .ok ids => .ok (page ++ ids)),
         ⟨(count + page.length) * 20 / 100, 100,
           "Listed ".data ++ (Nat.repr (count + page.length)).data ++
             " emails...".data⟩ :: r.2.1,
         r.2.2 + 1)

/-- The per-item loop of `FetchAttachmentsWithContext`: check cancellation
at the top of each iteration, report `20 + 80*i/total`, process the message
with 3 retries; any failure (including a cancellation observed inside the
retry loop) is logged and the loop continues; successes bump the download
counter.  Returns the outcome, emitted triples, checkpoints consumed and the
final counter. -/
def itemsLoop (env : GmailEnv) (cancelAt : Option Nat) :
    List (List Char) → Nat → Nat → Nat → Nat →
      Except CancelError Unit × List Triple × Nat × Nat
  | [], _, _, _, dc => (.ok (), [], 0, dc)
  | msgId :: rest, i, total, tick, dc =>
    if cancelled cancelAt tick then (.error .canceled, [], 1, dc)
    else
      let triple : Triple := ⟨20 + 80 * i / total, 100,
        "Processing email ".data ++ (Nat.repr (i + 1)).data ++ "/".data ++
          (Nat.repr total).data⟩
      let r := processMessageWithRetry env cancelAt msgId 3 (tick + 1)
      let newDc := match r.outcome with
        | .ok none => dc + 1
        | _ => dc
      let rest' := itemsLoop env cancelAt rest (i + 1) total (tick + 1 + r.ticks) newDc
      (rest'.1, triple :: rest'.2.1, 1 + r.ticks + rest'.2.2.1, rest'.2.2.2)

/-- The outcome of `FetchAttachmentsWithContext`: success (with the number
of messages whose processing returned `nil`), the terminal
no-messages-found error, or the propagated `ctx.Err()`. -/
inductive FetchResult where
  | ok : Nat → FetchResult
  | noMessages : FetchResult
  | canceled : FetchResult
deriving DecidableEq

/-- `FetchAttachmentsWithContext`: list all pages, fail when no message
matched, then process every message, reporting progress throughout; a
failing item never aborts the loop. -/
def fetchAttachments (env : GmailEnv) (cancelAt : Option Nat)
    (pages : List (List (List Char))) : FetchResult × List Triple :=
  let t0 : Triple := ⟨0, 100, "Listing emails...".data⟩
  match listPagesLoop cancelAt pages 0 0 with
  | (.error _, tr, _) => (.canceled, t0 :: tr)
  | (.ok ids, tr, ticksL) =>
    if ids.length = 0 then (.noMessages, t0 :: tr)
    else
      let t1 : Triple := ⟨20, 100,
        "Processing ".data ++ (Nat.repr ids.length).data ++ " emails...".data⟩
      let r := itemsLoop env cancelAt ids 0 ids.length ticksL 0
      match r.1 with
      | .error _ => (.canceled, t0 :: tr ++ t1 :: r.2.1)
      | .ok _ =>
        (.ok r.2.2.2, t0 :: tr ++ t1 :: r.2.1 ++
          [⟨100, 100, "Downloaded ".data ++ (Nat.repr r.2.2.2).data ++
            " attachments".data⟩])

theorem msgRetryLoop_getCalls_le (env : GmailEnv) (cancelAt : Option Nat)
    (msgId : List Char) :
    ∀ fuel attempt tick lastErr,
      (msgRetryLoop env cancelAt msgId fuel attempt tick lastErr).getCalls ≤ fuel := by
  intro fuel
  induction fuel with
  | zero => intro a t le; simp [msgRetryLoop]
  | succ fuel ih =>
    intro a t le
    by_cases hc : cancelled cancelAt t = true
    · simp [msgRetryLoop, hc]
    · cases hg : env.msgGet msgId a with
      | error e =>
        simp only [msgRetryLoop, hc, Bool.false_eq_true, if_false, hg]
        exact Nat.add_le_add_right (ih _ _ _) 1
      | ok msg =>
        simp only [msgRetryLoop, hc, Bool.false_eq_true, if_false, hg]
        by_cases hatt :
            (processParts env msgId msg.sender msg.parts le).2.1 = true
        · simp [hatt]
        · simp only [hatt, Bool.false_eq_true, if_false]
          exact Nat.add_le_add_right (ih _ _ _) 1

theorem msgRetryLoop_sleeps (env : GmailEnv) (msgId : List Char) :
    ∀ fuel attempt tick lastErr,
      (msgRetryLoop env none msgId fuel attempt tick lastErr).sleeps =
        (List.range' attempt
          (msgRetryLoop env none msgId fuel attempt tick lastErr).getCalls).filter
          (fun x => decide (0 < x)) := by
  intro fuel
  induction fuel with
  | zero => intro a t le; simp [msgRetryLoop]
  | succ fuel ih =>
    intro a t le
    have hc : cancelled none t = false := rfl
    cases hg : env.msgGet msgId a with
    | error e =>
      simp only [msgRetryLoop, hc, Bool.false_eq_true, if_false, hg]
      rw [ih (a + 1) (t + 1) (some ("unable to retrieve message: ".data ++ e))]
      rw [List.range'_succ, List.filter_cons]
      by_cases ha : 0 < a <;> simp [ha]
    | ok msg =>
      simp only [msgRetryLoop, hc, Bool.false_eq_true, if_false, hg]
      by_cases hatt : (processParts env msgId msg.sender msg.parts le).2.1 = true
      · simp only [hatt, if_pos]
        rw [List.range'_succ]
        by_cases ha : 0 < a <;> simp [ha, List.filter_cons]
      · simp only [hatt, Bool.false_eq_true, if_false]
        rw [ih (a + 1) (t + 1) (processParts env msgId msg.sender msg.parts le).1]
        rw [List.range'_succ, List.filter_cons]
        by_cases ha : 0 < a <;> simp [ha]

theorem range'_one_filter_pos (g : Nat) :
    (List.range' 0 g).filter (fun x => decide (0 < x)) = List.range' 1 (g - 1) := by
  cases g with
  | zero => rfl
  | succ m =>
    have h0 : (decide (0 < 0)) = false := by decide
    rw [List.range'_succ, List.filter_cons, h0]
    simp only [Bool.false_eq_true, if_false, Nat.succ_sub_one]
    refine List.filter_eq_self.mpr ?_
    intro a ha
    have h1 := (List.mem_range'_1.mp ha).1
    simp only [decide_eq_true_eq]
    omega

theorem listPagesLoop_none_spec :
    ∀ (pages : List (List (List Char))) (tick count : Nat),
      (listPagesLoop none pages tick count).1 = .ok pages.flatten ∧
      (listPagesLoop none pages tick count).2.2 = pages.length := by
  intro pages
  induction pages with
  | nil => intro t c; simp [listPagesLoop]
  | cons page rest ih =>
    intro t c
    have hc : cancelled none t = false := rfl
    cases rest with
    | nil => simp [listPagesLoop, hc]
    | cons p2 r2 =>
      obtain ⟨h1, h2⟩ := ih (t + 1) (c + page.length)
      constructor
      · show (match (listPagesLoop none (p2 :: r2) (t + 1) (c + page.length)).1 with
          | .error e => (.error e : Except CancelError (List (List Char)))
          | .ok ids => .ok (page ++ ids)) = .ok (page :: p2 :: r2).flatten
        rw [h1]
        simp
      · show (listPagesLoop none (p2 :: r2) (t + 1) (c + page.length)).2.2 + 1 =
          (page :: p2 :: r2).length
        rw [h2]
        simp

theorem itemsLoop_none_ok (env : GmailEnv) :
    ∀ (ids : List (List Char)) (i total tick dc : Nat),
      (itemsLoop env none ids i total tick dc).1 = .ok () ∧
      (itemsLoop env none ids i total tick dc).2.1.length = ids.length := by
  intro ids
  induction ids with
  | nil => intro i total tick dc; exact ⟨rfl, rfl⟩
  | cons m rest ih =>
    intro i total tick dc
    have hc : cancelled none tick = false := rfl
    simp only [itemsLoop, hc, Bool.false_eq_true, if_false, List.length_cons]
    refine ⟨(ih _ _ _ _).1, ?_⟩
    rw [(ih _ _ _ _).2]

theorem fetchAttachments_none_no_abort (env : GmailEnv)
    (pages : List (List (List Char))) :
    (pages.flatten.length = 0 → (fetchAttachments env none pages).1 = .noMessages) ∧
    (pages.flatten.length ≠ 0 → ∃ dc, (fetchAttachments env none pages).1 = .ok dc) := by
  obtain ⟨hl1, hl2⟩ := listPagesLoop_none_spec pages 0 0
  rcases hrec : listPagesLoop none pages 0 0 with ⟨res, tr, tk⟩
  rw [hrec] at hl1 hl2
  dsimp only at hl1 hl2
  subst hl1
  subst hl2
  constructor
  · intro h0
    rw [fetchAttachments, hrec]
    simp [h0]
  · intro h0
    rw [fetchAttachments, hrec]
    dsimp only
    rw [if_neg h0]
    obtain ⟨hi1, _⟩ :=
      itemsLoop_none_ok env pages.flatten 0 pages.flatten.length pages.length 0
    rcases hit :
      itemsLoop env none pages.flatten 0 pages.flatten.length pages.length 0 with
      ⟨ires, itr, itk2, idc⟩
    rw [hit] at hi1
    dsimp only at hi1
    subst hi1
    exact ⟨idc, rfl⟩

/-- Claim C5, counterexample.  A remote item whose message get fails on
every attempt is processed 4 times in total (one initial attempt plus 3
retries), refuting the claimed bound of 3; and an item whose only
attachment download fails is attempted once and reported as success (no
retry, no written file), refuting the claimed retry-on-download-failure. -/
theorem processMessage_four_attempts :
    (processMessageWithRetry
        ⟨fun _ _ => .error "boom".data, fun _ _ => .error "x".data,
         fun d => .ok d, fun _ _ => none⟩
        none "m1".data 3 0).getCalls = 4 ∧
    ¬ ((processMessageWithRetry
        ⟨fun _ _ => .error "boom".data, fun _ _ => .error "x".data,
         fun d => .ok d, fun _ _ => none⟩
        none "m1".data 3 0).getCalls ≤ 3) ∧
    (processMessageWithRetry
        ⟨fun _ _ => .ok ⟨"Alice".data, [⟨"cv.pdf".data, "a1".data⟩]⟩,
         fun _ _ => .error "network".data, fun d => .ok d, fun _ _ => none⟩
        none "m1".data 3 0).outcome = .ok none ∧
    (processMessageWithRetry
        ⟨fun _ _ => .ok ⟨"Alice".data, [⟨"cv.pdf".data, "a1".data⟩]⟩,
         fun _ _ => .error "network".data, fun d => .ok d, fun _ _ => none⟩
        none "m1".data 3 0).getCalls = 1 ∧
    (processMessageWithRetry
        ⟨fun _ _ => .ok ⟨"Alice".data, [⟨"cv.pdf".data, "a1".data⟩]⟩,
         fun _ _ => .error "network".data, fun d => .ok d, fun _ _ => none⟩
        none "m1".data 3 0).written = [] := by
  refine ⟨by rfl, ?_, by rfl, by rfl, by rfl⟩
  have h4 : (processMessageWithRetry
      ⟨fun _ _ => .error "boom".data, fun _ _ => .error "x".data,
       fun d => .ok d, fun _ _ => none⟩
      none "m1".data 3 0).getCalls = 4 := by rfl
  rw [h4]
  omega

/-- Claim C5, amended.  Per-item processing is attempted at most 4 times in
total (one initial attempt plus up to 3 retries, the loop bound being
`attempt <= retries` with `retries = 3`), with linearly increasing backoff
(`attempt × 1s`, i.e. 1s, 2s, 3s) before each retry; message-get failures
trigger the retries, and if all attempts fail the item is skipped while the
fetch continues: an uncancelled fetch never aborts — it reports one
progress triple per item and ends in success (or in the distinct
no-messages error when the listing was empty). -/
theorem processMessage_retry_policy :
    (∀ (env : GmailEnv) (cancelAt : Option Nat) (msgId : List Char) (tick : Nat),
      (processMessageWithRetry env cancelAt msgId 3 tick).getCalls ≤ 4) ∧
    (∀ (env : GmailEnv) (msgId : List Char) (tick : Nat),
      (processMessageWithRetry env none msgId 3 tick).sleeps =
        List.range' 1 ((processMessageWithRetry env none msgId 3 tick).getCalls - 1)) ∧
    (∀ (env : GmailEnv) (ids : List (List Char)) (i total tick dc : Nat),
      (itemsLoop env none ids i total tick dc).1 = .ok () ∧
      (itemsLoop env none ids i total tick dc).2.1.length = ids.length) ∧
    (∀ (env : GmailEnv) (pages : List (List (List Char))),
      pages.flatten.length ≠ 0 →
      ∃ dc, (fetchAttachments env none pages).1 = .ok dc) := by
  refine ⟨?_, ?_, itemsLoop_none_ok, fun env pages =>
    (fetchAttachments_none_no_abort env pages).2⟩
  · intro env cancelAt msgId tick
    exact msgRetryLoop_getCalls_le env cancelAt msgId 4 0 tick none
  · intro env msgId tick
    rw [processMessageWithRetry, msgRetryLoop_sleeps env msgId 4 0 tick none,
      range'_one_filter_pos]

/-- Witness for claim C5: a concrete single-page fetch whose only message
always fails is retried with backoffs 1s, 2s, 3s, skipped, and the fetch
still succeeds with zero downloads. -/
theorem processMessage_retry_policy_witness :
    (processMessageWithRetry
        ⟨fun _ _ => .error "boom".data, fun _ _ => .error "x".data,
         fun d => .ok d, fun _ _ => none⟩ none "m1".data 3 0).getCalls ≤ 4 ∧
    (processMessageWithRetry
        ⟨fun _ _ => .error "boom".data, fun _ _ => .error "x".data,
         fun d => .ok d, fun _ _ => none⟩ none "m1".data 3 0).sleeps =
      List.range' 1 ((processMessageWithRetry
        ⟨fun _ _ => .error "boom".data, fun _ _ => .error "x".data,
         fun d => .ok d, fun _ _ => none⟩ none "m1".data 3 0).getCalls - 1) ∧
    ((([["m1".data]] : List (List (List Char))).flatten.length ≠ 0) ∧
      ∃ dc, (fetchAttachments
        ⟨fun _ _ => .error "boom".data, fun _ _ => .error "x".data,
         fun d => .ok d, fun _ _ => none⟩ none [["m1".data]]).1 = .ok dc) :=
  ⟨processMessage_retry_policy.1 _ none "m1".data 0,
   processMessage_retry_policy.2.1 _ "m1".data 0,
   by decide,
   processMessage_retry_policy.2.2.2 _ [["m1".data]] (by decide)⟩

theorem listPagesLoop_cancel (k : Nat) :
    ∀ (pages : List (List (List Char))) (t c : Nat), t ≤ k → k < t + pages.length →
      (listPagesLoop (some k) pages t c).1 = .error .canceled := by
  intro pages
  induction pages with
  | nil =>
    intro t c h1 h2
    simp only [List.length_nil, Nat.add_zero] at h2
    omega
  | cons page rest ih =>
    intro t c h1 h2
    by_cases hik : k ≤ t
    · have hcan : cancelled (some k) t = true := by simp [cancelled, hik]
      simp [listPagesLoop, hcan]
    · have hcan : cancelled (some k) t = false := by
        simp only [cancelled, decide_eq_false_iff_not]
        omega
      cases rest with
      | nil =>
        simp only [List.length_cons, List.length_nil] at h2
        omega
      | cons p2 r2 =>
        have hrec := ih (t + 1) (c + page.length) (by omega)
          (by simp only [List.length_cons] at h2 ⊢; omega)
        rw [listPagesLoop, hcan]
        · simp only [Bool.false_eq_true, if_false]
          show (match (listPagesLoop (some k) (p2 :: r2) (t + 1) (c + page.length)).1 with
            | .error e => (.error e : Except CancelError (List (List Char)))
            | .ok ids => .ok (page ++ ids)) = .error .canceled
          rw [hrec]
        · simp

theorem listPagesLoop_late_cancel (k : Nat) :
    ∀ (pages : List (List (List Char))) (t c : Nat), t + pages.length ≤ k →
      listPagesLoop (some k) pages t c = listPagesLoop none pages t c := by
  intro pages
  induction pages with
  | nil => intro t c _; rfl
  | cons page rest ih =>
    intro t c hk
    have hcan : cancelled (some k) t = false := by
      simp only [cancelled, decide_eq_false_iff_not]
      simp only [List.length_cons] at hk
      omega
    have hcn : cancelled none t = false := rfl
    cases rest with
    | nil => rw [listPagesLoop, hcan]; rw [listPagesLoop, hcn]
    | cons p2 r2 =>
      have hinner := ih (t + 1) (c + page.length)
        (by simp only [List.length_cons] at hk ⊢; omega)
      have hrhs : listPagesLoop none (page :: p2 :: r2) t c =
          ((match (listPagesLoop none (p2 :: r2) (t + 1) (c + page.length)).1 with
            | .error e => .error e
            | .ok ids => .ok (page ++ ids)),
           ⟨(c + page.length) * 20 / 100, 100,
             "Listed ".data ++ (Nat.repr (c + page.length)).data ++
               " emails...".data⟩ ::
             (listPagesLoop none (p2 :: r2) (t + 1) (c + page.length)).2.1,
           (listPagesLoop none (p2 :: r2) (t + 1) (c + page.length)).2.2 + 1) := rfl
      rw [listPagesLoop, hcan]
      · simp only [Bool.false_eq_true, if_false]
        rw [hinner, hrhs]
      · simp

theorem fetch_cancel_during_listing (env : GmailEnv)
    (pages : List (List (List Char))) (k : Nat) (hk : k < pages.length) :
    (fetchAttachments env (some k) pages).1 = .canceled := by
  have hres := listPagesLoop_cancel k pages 0 0 (by omega) (by omega)
  rcases hrec : listPagesLoop (some k) pages 0 0 with ⟨res, tr, tk⟩
  rw [hrec] at hres
  dsimp only at hres
  subst hres
  rw [fetchAttachments, hrec]

theorem fetch_cancel_at_first_item (env : GmailEnv)
    (pages : List (List (List Char))) (h0 : pages.flatten.length ≠ 0) :
    (fetchAttachments env (some pages.length) pages).1 = .canceled := by
  have hlate := listPagesLoop_late_cancel pages.length pages 0 0 (by omega)
  obtain ⟨hl1, hl2⟩ := listPagesLoop_none_spec pages 0 0
  rw [← hlate] at hl1 hl2
  rcases hrec : listPagesLoop (some pages.length) pages 0 0 with ⟨res, tr, tk⟩
  rw [hrec] at hl1 hl2
  dsimp only at hl1 hl2
  subst hl1
  subst hl2
  rw [fetchAttachments, hrec]
  dsimp only
  rw [if_neg h0]
  cases hfl : pages.flatten with
  | nil => rw [hfl] at h0; simp at h0
  | cons m rest =>
    have hcanc : cancelled (some pages.length) pages.length = true := by
      simp [cancelled]
    have hitem : itemsLoop env (some pages.length) (m :: rest) 0
        (m :: rest).length pages.length 0 = (.error .canceled, [], 1, 0) := by
      rw [itemsLoop, hcanc]
      simp
    rw [hitem]

/-- Claim C7.  The cancellation signal is checked at the top of every loop
iteration and propagates as the distinguishable cancellation error: in the
evaluation loop, cancellation observed at iteration `k` makes the run return
`ctx.Err()` (not a generic failure) with evaluator calls made only for the
first `k` records — none after the observation; in the remote-source fetch,
cancellation observed at a page-loop checkpoint or at the first item-loop
checkpoint makes the fetch return the cancelled outcome, distinct from both
success and the no-messages error. -/
theorem cancellation_checked_every_loop :
    (∀ (eval : Nat → Nat → Except (List Char) Scores) (docs : List (List Char))
        (k : Nat), k < docs.length →
      (processApplicants (some k) eval docs).1 = .error .canceled ∧
      (processApplicants (some k) eval docs).2.1 =
        ((List.range k).map (fun j => (scoreWithRetry (eval j) [] 0).2.1)).sum) ∧
    (∀ (env : GmailEnv) (pages : List (List (List Char))) (k : Nat),
      k < pages.length → (fetchAttachments env (some k) pages).1 = .canceled) ∧
    (∀ (env : GmailEnv) (pages : List (List (List Char))),
      pages.flatten.length ≠ 0 →
      (fetchAttachments env (some pages.length) pages).1 = .canceled) := by
  refine ⟨?_, fetch_cancel_during_listing, fetch_cancel_at_first_item⟩
  intro eval docs k hk
  obtain ⟨h1, h2⟩ := processLoop_cancel eval docs.length k docs 0 (by omega) (by omega)
  rcases hrec : processLoop (some k) eval docs.length 0 docs with ⟨res, calls, tr⟩
  rw [hrec] at h1 h2
  dsimp only at h1 h2
  subst h1
  subst h2
  rw [processApplicants, hrec]
  exact ⟨rfl, by simp [List.range_eq_range']⟩

/-- Witness for claim C7: cancelling a 3-record batch at iteration 1 yields
the cancellation error after exactly one evaluator call, and a fetch
cancelled before its first page returns the cancelled outcome. -/
theorem cancellation_checked_every_loop_witness :
    (1 < (["A".data, "B".data, "C".data] : List (List Char)).length) ∧
    ((processApplicants (some 1) (fun _ _ => .ok Scores.zero)
        ["A".data, "B".data, "C".data]).1 = .error .canceled ∧
     (processApplicants (some 1) (fun _ _ => .ok Scores.zero)
        ["A".data, "B".data, "C".data]).2.1 =
       ((List.range 1).map (fun j => (scoreWithRetry
         ((fun _ _ => .ok Scores.zero : Nat → Nat → Except (List Char) Scores) j)
         [] 0).2.1)).sum) ∧
    (fetchAttachments
        ⟨fun _ _ => .error "boom".data, fun _ _ => .error "x".data,
         fun d => .ok d, fun _ _ => none⟩ (some 0) [["m1".data]]).1 = .canceled :=
  ⟨by decide,
   cancellation_checked_every_loop.1 (fun _ _ => .ok Scores.zero)
     ["A".data, "B".data, "C".data] 1 (by decide),
   cancellation_checked_every_loop.2.1 _ [["m1".data]] 0 (by decide)⟩

/-! ## Agent-level progress trace of a Gmail run
(`IngestFromGmailWithContext`, uncancelled — the path `IngestFromGmail`
takes with `context.Background()`) -/

/-- The progress mapping installed by `IngestFromGmailWithContext` on the
Gmail handler's callback: `progress := 40 * current / total`, reported
against a total of 100. -/
def gmailCbMap (t : Triple) : Triple :=
  ⟨40 * t.current / t.total, 100, t.message⟩

/-- The sequence of progress triples `IngestFromGmailWithContext` delivers
to the agent's progress callback on an uncancelled run: the three fixed
milestones 0/5/10, the handler's triples put through `gmailCbMap`, then —
when the fetch succeeded — the 40/50 milestones, the 60% processing
milestone (when documents were loaded) and the evaluation-phase triples of
`processApplicants`.  Job parsing, handler construction, upload clearing,
LLM-client construction and document loading are taken to succeed; `docs`
is what `LoadDocuments` returned. -/
def ingestFromGmailTrace (env : GmailEnv) (pages : List (List (List Char)))
    (docs : List (List Char)) (eval : Nat → Nat → Except (List Char) Scores) :
    List Triple :=
  let base :=
    [⟨0, 100, "Initializing Gmail handler...".data⟩,
     ⟨5, 100, "Clearing existing uploads...".data⟩,
     ⟨10, 100, "Fetching emails from Gmail...".data⟩] ++
    (fetchAttachments env none pages).2.map gmailCbMap
  match (fetchAttachments env none pages).1 with
  | .ok _ =>
    base ++
    [⟨40, 100, "Initializing LLM client...".data⟩,
     ⟨50, 100, "Loading documents...".data⟩] ++
    (if docs.length = 0 then []
     else ⟨60, 100, "Processing ".data ++ (Nat.repr docs.length).data ++
         " applicants...".data⟩ ::
       (processApplicants none eval docs).2.2)
  | _ => base

/-- Claim C2 (violated by the code; this theorem evaluates the embedding at
the failing input).  On a Gmail run with a single one-message page and one
loaded document, the delivered percentages are
`0, 5, 10, 0, 8, 8, 40, 40, 50, 60, 60, 95, 100` over a constant total of
100: the agent's 10% milestone ("Fetching emails from Gmail...") is
immediately followed by the handler's listing-start report, which the
`40*current/total` mapping turns into 0% — the sequence regresses from 10
to 0, so it is not monotonically non-decreasing. -/
theorem gmailProgress_regresses :
    (ingestFromGmailTrace
        ⟨fun _ _ => .error "boom".data, fun _ _ => .error "x".data,
         fun d => .ok d, fun _ _ => none⟩
        [["m1".data]] ["Alice".data]
        (fun _ _ => .error "connection timeout".data)).map
      (fun t => (t.current, t.total)) =
      [(0, 100), (5, 100), (10, 100), (0, 100), (8, 100), (8, 100), (40, 100),
       (40, 100), (50, 100), (60, 100), (60, 100), (95, 100), (100, 100)] ∧
    ¬ ((10 : Nat) ≤ 0) := by
  exact ⟨by rfl, by decide⟩

/-! ## Document loading (`internal/ingestion/file_handler.go`)

`LoadDocuments` reads the uploads directory; the directory listing is
passed in as the result of `os.ReadDir` (`notExist` models the
`os.IsNotExist(err)` case), and each entry carries the bytes `os.ReadFile`
would return for it.  Go's map iteration order is unspecified; the model
keeps first-insertion order, which the verified claim does not depend on. -/

/-- A directory entry together with the file content behind it. -/
structure DirEntry where
  name : List Char
  isDir : Bool
  content : List Char
deriving DecidableEq

/-- The outcome of `os.ReadDir`: the listing, not-exists, or another error. -/
inductive ReadDirError where
  | notExist
  | other : List Char → ReadDirError
deriving DecidableEq

/-- `models.ApplicantDocument`. -/
structure ApplicantDocument where
  name : List Char
  cvContent : List Char
  cvPath : List Char
  clContent : List Char
  clPath : List Char
deriving DecidableEq

/-- Create-or-update of `applicantFiles[applicantName]` (a fresh record
carries just the applicant name, as in the source). -/
def updateAssoc (key : List Char) (f : ApplicantDocument → ApplicantDocument) :
    List (List Char × ApplicantDocument) → List (List Char × ApplicantDocument)
  | [] => [(key, f ⟨key, [], [], [], []⟩)]
  | (k, d) :: rest =>
    if k = key then (k, f d) :: rest
    else (k, d) :: updateAssoc key f rest

/-- The body of `LoadDocuments`' file loop: skip directories and unhandled
extensions, split the base name on `_`, classify the remainder as CV-like
or cover-letter-like, and record the content into the applicant's entry
(creating the entry even when the remainder matches neither). -/
def loadStep (acc : List (List Char × ApplicantDocument)) (entry : DirEntry) :
    List (List Char × ApplicantDocument) :=
  if entry.isDir then acc
  else
    let ext := toLowerL (fileExt entry.name)
    if ¬(ext = ".pdf".data ∨ ext = ".txt".data ∨ ext = ".doc".data ∨
        ext = ".docx".data) then acc
    else
      let baseName := trimSuffixL entry.name ext
      let parts := baseName.splitOn '_'
      if parts.length < 2 then acc
      else
        let applicantName := parts.headD []
        let docType := toLowerL (joinSep "_".data parts.tail)
        if containsSub docType "cv".data || containsSub docType "resume".data then
          updateAssoc applicantName
            (fun d => { d with cvContent := entry.content, cvPath := entry.name }) acc
        else if containsSub docType "cover".data ||
            containsSub docType "letter".data || containsSub docType "cl".data then
          updateAssoc applicantName
            (fun d => { d with clContent := entry.content, clPath := entry.name }) acc
        else
          updateAssoc applicantName (fun d => d) acc

/-- `LoadDocuments`: a missing uploads directory yields an empty list and no
error; any other listing error is surfaced; otherwise group the files and
keep only applicants with at least a CV. -/
def loadDocuments (rd : Except ReadDirError (List DirEntry)) :
    Except (List Char) (List ApplicantDocument) :=
  match rd with
  | .error .notExist => .ok []
  | .error (.other e) => .error ("failed to read uploads directory: ".data ++ e)
  | .ok files =>
    .ok (((files.foldl loadStep []).map Prod.snd).filter
      (fun d => !d.cvContent.isEmpty))

/-- The failure modes of the load phase of `IngestFromUploadWithContext`. -/
inductive UploadIngestError where
  | loadFailed : List Char → UploadIngestError
  | noDocuments
deriving DecidableEq

/-- The load phase of `IngestFromUploadWithContext`: surface a load error,
and report the distinct "no documents found in uploads directory" condition
on an empty result. -/
def ingestLoadPhase (rd : Except ReadDirError (List DirEntry)) :
    Except UploadIngestError (List ApplicantDocument) :=
  match loadDocuments rd with
  | .error e => .error (.loadFailed e)
  | .ok docs => if docs.length = 0 then .error .noDocuments else .ok docs

/-- Claim C10.  When the uploads directory does not exist, `LoadDocuments`
returns an empty list and no error (rather than a file-system error), and
the upload ingestion then fails only with the distinct no-documents-found
condition. -/
theorem loadDocuments_missing_dir :
    loadDocuments (.error .notExist) = .ok [] ∧
    ingestLoadPhase (.error .notExist) = .error .noDocuments :=
  ⟨rfl, rfl⟩

end CVReview
